import Mathlib

/-!
Verification of the leaphand input provider (`kivy/input/providers/leaphand.py`).

The development shallowly embeds the three parts of the module with design
content: the module-level frame queue (`_LEAP_QUEUE` together with
`LeapMotionListener.on_frame` pushing and `LeapHandEventProvider.update`
draining), the coordinate normalization helper `normalize`, and the
id-to-session lifecycle engine `LeapHandEventProvider.process_frame`.

Modelling conventions (each noted again at the definition it concerns):
* Raw sensor coordinates are rationals; the Python code uses floats, but every
  arithmetic fact proved here holds in exact arithmetic.
* The Python dict `self.touches` is an insertion-ordered association list,
  which is exactly the iteration order Python guarantees.
* The coordinate extraction for a hand is left as a placeholder (an undefined
  variable `position`) in the source; following the spec, each tracked hand
  carries an opaque raw 3-tuple.
* The `MotionEvent` base class is not part of the source tree; its
  constructor/`move`/`depack` protocol and the session creation-order counter
  are modelled from the spec.
-/

namespace LeapHand

/-- Embedding of the module helper `normalize(value, a, b)` from leaphand.py:
it returns `(value - a) / float(b - a)`. -/
def normalize (value a b : ℚ) : ℚ := (value - a) / (b - a)

/-- Embedding of a `LeapHandEvent` restricted to the fields this module reads
or writes. `device` and `uid` are the constructor arguments; `birth` models
the spec's `creation_order` monotonic counter (Modelled from the spec: the
`MotionEvent` base class is not in src, and the spec equips every session with
a monotonic creation-order counter that identifies the session object).
Fields not yet assigned by `depack` are `none`/`false`/`[]`. -/
structure LeapHandEvent where
  device : ℕ
  uid : ℕ
  birth : ℕ
  profile : List String
  sx : Option ℚ
  sy : Option ℚ
  sz : Option ℚ
  z : Option ℚ
  is_touch : Bool
deriving Repr, DecidableEq

/-- Embedding of `LeapHandEvent.depack`. The argument tuple's first component
may be `None`; in that case the method returns right after the superclass
call (Modelled from the spec: the base `MotionEvent.depack`, not in src, does
not assign any of the fields tracked here, so the early-return branch leaves
the event unchanged). Otherwise it sets the profile, the normalized
`sx`/`sy`/`sz` with the module's fixed calibration bounds, the raw `z`, and
the touch flag, exactly as leaphand.py lines 54-60 do. -/
def LeapHandEvent.depack (ev : LeapHandEvent) (args : Option ℚ × ℚ × ℚ) :
    LeapHandEvent :=
  match args with
  | (none, _, _) => ev
  | (some x, y, z) =>
      { ev with
        profile := ["pos", "pos3d"]
        sx := some (normalize x (-150) 150)
        sy := some (normalize y 40 460)
        sz := some (normalize z (-350) 350)
        z := some z
        is_touch := true }

/-- Embedding of `LeapHandEvent(self.device, uid, args)` construction.
Modelled from the spec: the base `MotionEvent.__init__` (not in src) records
the device and id and delegates the argument tuple to `depack`; the fresh
session additionally records the next creation-order counter value. -/
def newLeapHandEvent (device uid birth : ℕ) (args : Option ℚ × ℚ × ℚ) :
    LeapHandEvent :=
  LeapHandEvent.depack
    { device := device, uid := uid, birth := birth, profile := [],
      sx := none, sy := none, sz := none, z := none, is_touch := false } args

/-- Embedding of `touch.move(args)`. Modelled from the spec: the base
`MotionEvent.move` (not in src) overwrites the position fields of the very
same event object in place, via `depack`, leaving its identity untouched. -/
def LeapHandEvent.move (ev : LeapHandEvent) (args : Option ℚ × ℚ × ℚ) :
    LeapHandEvent :=
  ev.depack args

/-- Kinds of lifecycle events dispatched by `process_frame`: the strings
`'begin'`, `'update'`, `'end'` of the source. -/
inductive EventKind
  | Begin
  | Update
  | End
deriving Repr, DecidableEq

/-- One tracked hand reported by a frame: its producer-assigned id together
with its raw position. (Modelled from the spec for the position part: the
source leaves the coordinate extraction as a placeholder, an undefined
variable `position`; the spec treats the position as an opaque per-object
3-tuple supplied by the external driver.) -/
structure Hand where
  id : ℕ
  px : ℚ
  py : ℚ
  pz : ℚ
deriving Repr, DecidableEq

/-- A frame exposes the ordered collection `frame.hands`. -/
abbrev Frame := List Hand

/-- State of `LeapHandEventProvider` relevant to `process_frame`: the device
name and the dict `self.touches`, embedded as an insertion-ordered
association list (Python dicts iterate in insertion order). `nextBirth` is
the spec's monotonic creation-order counter (Modelled from the spec). -/
structure ProviderState where
  device : ℕ
  touches : List (ℕ × LeapHandEvent)
  nextBirth : ℕ
deriving Repr, DecidableEq

/-- State right after `start()`: no active touches. -/
def initState : ProviderState := { device := 0, touches := [], nextBirth := 0 }

/-- Dict lookup `touches[uid]` (also deciding `uid in touches`). -/
def alistFind : List (ℕ × LeapHandEvent) → ℕ → Option LeapHandEvent
  | [], _ => none
  | (k, v) :: rest, i => if k = i then some v else alistFind rest i

/-- Overwriting the value stored at an existing key, keeping its insertion
position: the effect on the dict of mutating the stored touch in place. -/
def alistSet : List (ℕ × LeapHandEvent) → ℕ → LeapHandEvent →
    List (ℕ × LeapHandEvent)
  | [], _, _ => []
  | (k, v) :: rest, i, w =>
      if k = i then (k, w) :: rest else (k, v) :: alistSet rest i w

/-- Membership test `uid in touches`. -/
def memKeys (l : List (ℕ × LeapHandEvent)) (i : ℕ) : Bool :=
  l.any (fun p => decide (p.1 = i))

/-- The body of the `for hand in frame.hands` loop of `process_frame` for one
hand: begin a fresh session when the id is unknown, otherwise move the stored
session in place; either way exactly one event is emitted. -/
def stepHand (st : ProviderState) (h : Hand) :
    (EventKind × LeapHandEvent) × ProviderState :=
  match alistFind st.touches h.id with
  | none =>
      let touch := newLeapHandEvent st.device h.id st.nextBirth
        (some h.px, h.py, h.pz)
      ((EventKind.Begin, touch),
        { st with touches := st.touches ++ [(h.id, touch)],
                  nextBirth := st.nextBirth + 1 })
  | some t =>
      let touch := t.move (some h.px, h.py, h.pz)
      ((EventKind.Update, touch),
        { st with touches := alistSet st.touches h.id touch })

/-- The whole `for hand in frame.hands` loop, accumulating the emitted
Begin/Update events in report order. -/
def processHands (st : ProviderState) :
    List Hand → List (EventKind × LeapHandEvent) × ProviderState
  | [] => ([], st)
  | h :: hs =>
      let r := stepHand st h
      let rest := processHands r.2 hs
      (r.1 :: rest.1, rest.2)

/-- Embedding of `LeapHandEventProvider.process_frame`: run the hand loop,
then walk a snapshot of the dict keys in insertion order, emitting `End` and
deleting every key that is not among this frame's reported ids
(`available_uid`), and return the Begin/Update events followed by the End
events. -/
def process_frame (st : ProviderState) (frame : Frame) :
    List (EventKind × LeapHandEvent) × ProviderState :=
  let available := frame.map Hand.id
  let r := processHands st frame
  let endEvents := (r.2.touches.filter (fun p => !decide (p.1 ∈ available))).map
      (fun p => (EventKind.End, p.2))
  let remaining := r.2.touches.filter (fun p => decide (p.1 ∈ available))
  (r.1 ++ endEvents, { r.2 with touches := remaining })

/-- Processing a list of frames in order, concatenating the dispatched
events: the effect of the drain loop in `update` on the provider state. -/
def updateRun (st : ProviderState) :
    List Frame → List (EventKind × LeapHandEvent) × ProviderState
  | [] => ([], st)
  | f :: fs =>
      let r := process_frame st f
      let rest := updateRun r.2 fs
      (r.1 ++ rest.1, rest.2)

/-- Producer push: `_LEAP_QUEUE.append(frame)` in `on_frame`. -/
def push (q : List Frame) (f : Frame) : List Frame := q ++ [f]

/-- The consumer `while True: frame = _LEAP_QUEUE.popleft()` loop of
`update`, which stops via the caught `IndexError` when the deque is empty:
it removes and returns the queued frames oldest first. -/
def drainLoop : List Frame → List Frame
  | [] => []
  | f :: q => f :: drainLoop q

/-- Draining returns all queued frames in FIFO order and leaves the queue
empty. -/
def drainAll (q : List Frame) : List Frame × List Frame := (drainLoop q, [])

/-- Embedding of `LeapHandEventProvider.update` (poll): drain the queue and
process every drained frame in order; the queue is left empty. -/
def update (st : ProviderState) (q : List Frame) :
    (List (EventKind × LeapHandEvent) × ProviderState) × List Frame :=
  (updateRun st (drainLoop q), [])

/-- Keys of the touches dict, in insertion order. -/
def keysOf (l : List (ℕ × LeapHandEvent)) : List ℕ := l.map Prod.fst

/-- Well-formedness of the provider state: dict keys are distinct (as they
are in a Python dict), and the touch stored at a key carries that key as its
uid (the code always stores `touches[uid] = touch` with `touch` built from
`uid`). -/
def Inv (st : ProviderState) : Prop :=
  (keysOf st.touches).Nodup ∧ ∀ p ∈ st.touches, p.2.uid = p.1

instance (st : ProviderState) : Decidable (Inv st) := by
  unfold Inv; infer_instance

/-- Projection of an event list onto one session id: the kinds of the events
whose touch carries that uid, in emission order. -/
def projKinds (evs : List (EventKind × LeapHandEvent)) (i : ℕ) :
    List EventKind :=
  (evs.filter (fun e => decide (e.2.uid = i))).map Prod.fst

/-- Lifecycle automaton for a single id: `false` means no session is open,
`true` means one is. `Begin` is legal only when closed, `Update`/`End` only
when open; anything else is a lifecycle violation (`none`). -/
def kindStep : Bool → EventKind → Option Bool
  | false, EventKind.Begin => some true
  | true, EventKind.Update => some true
  | true, EventKind.End => some false
  | _, _ => none

/-- Run of the lifecycle automaton over a kind sequence; `some b` means the
sequence is a well-nested `(Begin Update* End)*` chain followed, when
`b = true`, by an open `Begin Update*` block. -/
def kindsOk : Bool → List EventKind → Option Bool
  | b, [] => some b
  | b, k :: ks =>
      match kindStep b k with
      | some b' => kindsOk b' ks
      | none => none

/-- Touch of the last Begin/Update event for a given uid in an event list:
the observable stand-in for "the session object currently stored for that
id", used to state that End re-emits the very object last begun/updated. -/
def lastBU (evs : List (EventKind × LeapHandEvent)) (i : ℕ) :
    Option LeapHandEvent :=
  ((evs.filter (fun e =>
      decide (e.2.uid = i) && !decide (e.1 = EventKind.End))).map
    (fun e => e.2)).getLast?

/-- History coherence between a state and the events emitted so far: the
touch stored for each active id is exactly the touch carried by the last
Begin/Update event emitted for that id. This is the pure-embedding image of
the Python aliasing discipline, where the dict entry and the event carry one
and the same mutable object. -/
def TracksLast (evs : List (EventKind × LeapHandEvent))
    (st : ProviderState) : Prop :=
  ∀ p ∈ st.touches, lastBU evs p.1 = some p.2

/-! Basic facts about events: `depack`, hence `move` and construction, never
touch the identity fields `device`, `uid`, `birth`. -/

@[simp]
theorem depack_uid (ev : LeapHandEvent) (a : Option ℚ × ℚ × ℚ) :
    (ev.depack a).uid = ev.uid := by
  rcases a with ⟨x, y, z⟩; cases x <;> rfl

@[simp]
theorem depack_birth (ev : LeapHandEvent) (a : Option ℚ × ℚ × ℚ) :
    (ev.depack a).birth = ev.birth := by
  rcases a with ⟨x, y, z⟩; cases x <;> rfl

@[simp]
theorem depack_device (ev : LeapHandEvent) (a : Option ℚ × ℚ × ℚ) :
    (ev.depack a).device = ev.device := by
  rcases a with ⟨x, y, z⟩; cases x <;> rfl

@[simp]
theorem move_uid (ev : LeapHandEvent) (a : Option ℚ × ℚ × ℚ) :
    (ev.move a).uid = ev.uid := depack_uid ev a

@[simp]
theorem move_birth (ev : LeapHandEvent) (a : Option ℚ × ℚ × ℚ) :
    (ev.move a).birth = ev.birth := depack_birth ev a

@[simp]
theorem move_device (ev : LeapHandEvent) (a : Option ℚ × ℚ × ℚ) :
    (ev.move a).device = ev.device := depack_device ev a

@[simp]
theorem new_uid (d u b : ℕ) (a : Option ℚ × ℚ × ℚ) :
    (newLeapHandEvent d u b a).uid = u := depack_uid _ a

/-! Association-list (dict) lemmas. -/

@[simp]
theorem memKeys_nil (i : ℕ) : memKeys [] i = false := rfl

@[simp]
theorem memKeys_cons (k : ℕ) (v : LeapHandEvent)
    (l : List (ℕ × LeapHandEvent)) (i : ℕ) :
    memKeys ((k, v) :: l) i = (decide (k = i) || memKeys l i) := rfl

@[simp]
theorem memKeys_append (l₁ l₂ : List (ℕ × LeapHandEvent)) (i : ℕ) :
    memKeys (l₁ ++ l₂) i = (memKeys l₁ i || memKeys l₂ i) :=
  List.any_append

theorem memKeys_iff (l : List (ℕ × LeapHandEvent)) (i : ℕ) :
    memKeys l i = true ↔ i ∈ keysOf l := by
  simp [memKeys, keysOf, List.any_eq_true, List.mem_map]

theorem memKeys_eq_decide (l : List (ℕ × LeapHandEvent)) (i : ℕ) :
    memKeys l i = decide (i ∈ keysOf l) := by
  cases hm : memKeys l i
  · have : ¬ i ∈ keysOf l := fun h => by
      have := (memKeys_iff l i).2 h
      rw [hm] at this; exact Bool.false_ne_true this
    simp [this]
  · simp [(memKeys_iff l i).1 hm]

@[simp]
theorem keysOf_nil : keysOf [] = [] := rfl

@[simp]
theorem keysOf_cons (k : ℕ) (v : LeapHandEvent)
    (l : List (ℕ × LeapHandEvent)) :
    keysOf ((k, v) :: l) = k :: keysOf l := rfl

@[simp]
theorem keysOf_append (l₁ l₂ : List (ℕ × LeapHandEvent)) :
    keysOf (l₁ ++ l₂) = keysOf l₁ ++ keysOf l₂ :=
  List.map_append _ _ _

theorem alistFind_none_iff (l : List (ℕ × LeapHandEvent)) (i : ℕ) :
    alistFind l i = none ↔ memKeys l i = false := by
  induction l with
  | nil => simp [alistFind]
  | cons p rest ih =>
      obtain ⟨k, v⟩ := p
      by_cases hk : k = i
      · subst hk; simp [alistFind]
      · simp [alistFind, hk, ih]

theorem alistFind_mem (l : List (ℕ × LeapHandEvent)) (i : ℕ)
    (v : LeapHandEvent) (h : alistFind l i = some v) : (i, v) ∈ l := by
  induction l with
  | nil => simp [alistFind] at h
  | cons p rest ih =>
      obtain ⟨k, w⟩ := p
      by_cases hk : k = i
      · subst hk
        simp [alistFind] at h
        subst h; exact List.mem_cons_self _ _
      · simp [alistFind, hk] at h
        exact List.mem_cons_of_mem _ (ih h)

theorem alistFind_some_memKeys (l : List (ℕ × LeapHandEvent)) (i : ℕ)
    (v : LeapHandEvent) (h : alistFind l i = some v) : memKeys l i = true :=
  (memKeys_iff l i).2 (by
    have := alistFind_mem l i v h
    exact List.mem_map.2 ⟨(i, v), this, rfl⟩)

@[simp]
theorem keysOf_alistSet (l : List (ℕ × LeapHandEvent)) (i : ℕ)
    (w : LeapHandEvent) : keysOf (alistSet l i w) = keysOf l := by
  induction l with
  | nil => rfl
  | cons p rest ih =>
      obtain ⟨k, v⟩ := p
      by_cases hk : k = i <;> simp [alistSet, hk, ih]

theorem memKeys_alistSet (l : List (ℕ × LeapHandEvent)) (i j : ℕ)
    (w : LeapHandEvent) : memKeys (alistSet l j w) i = memKeys l i := by
  rw [memKeys_eq_decide, memKeys_eq_decide, keysOf_alistSet]

theorem mem_alistSet_of_nodup (l : List (ℕ × LeapHandEvent)) (i : ℕ)
    (w : LeapHandEvent) (hnd : (keysOf l).Nodup)
    (p : ℕ × LeapHandEvent) (hp : p ∈ alistSet l i w) :
    p = (i, w) ∨ (p ∈ l ∧ p.1 ≠ i) := by
  induction l with
  | nil => simp [alistSet] at hp
  | cons q rest ih =>
      obtain ⟨k, v⟩ := q
      rw [keysOf_cons, List.nodup_cons] at hnd
      by_cases hk : k = i
      · subst hk
        simp [alistSet] at hp
        rcases hp with hp | hp
        · left; simp [hp]
        · right
          refine ⟨List.mem_cons_of_mem _ hp, ?_⟩
          intro hpi
          exact hnd.1 (hpi ▸ List.mem_map.2 ⟨p, hp, rfl⟩)
      · simp [alistSet, hk] at hp
        rcases hp with hp | hp
        · right
          refine ⟨by simp [hp], ?_⟩
          simp [hp, hk]
        · rcases ih hnd.2 hp with h | h
          · exact Or.inl h
          · exact Or.inr ⟨List.mem_cons_of_mem _ h.1, h.2⟩

/-! Preservation of the state invariant and evolution of dict membership. -/

theorem stepHand_inv (st : ProviderState) (h : Hand) (hInv : Inv st) :
    Inv (stepHand st h).2 := by
  obtain ⟨hnd, huid⟩ := hInv
  cases hfind : alistFind st.touches h.id with
  | none =>
      have hnotmem : ¬ h.id ∈ keysOf st.touches := by
        intro hmem
        have := (memKeys_iff _ _).2 hmem
        rw [(alistFind_none_iff _ _).1 hfind] at this
        exact Bool.false_ne_true this
      constructor
      · simp [stepHand, hfind, List.nodup_append, hnd, hnotmem]
      · intro p hp
        simp [stepHand, hfind] at hp
        rcases hp with hp | hp
        · exact huid p hp
        · simp [hp]
  | some t =>
      have ht : t.uid = h.id := huid (h.id, t) (alistFind_mem _ _ _ hfind)
      constructor
      · simpa [stepHand, hfind] using hnd
      · intro p hp
        simp only [stepHand, hfind] at hp
        rcases mem_alistSet_of_nodup _ _ _ hnd p hp with hp | hp
        · simp [hp, ht]
        · exact huid p hp.1

theorem stepHand_memKeys (st : ProviderState) (h : Hand) (i : ℕ) :
    memKeys (stepHand st h).2.touches i
      = (memKeys st.touches i || decide (h.id = i)) := by
  cases hfind : alistFind st.touches h.id with
  | none => simp [stepHand, hfind]
  | some t =>
      have hm := alistFind_some_memKeys _ _ _ hfind
      by_cases hid : h.id = i
      · subst hid; simp [stepHand, hfind, memKeys_alistSet, hm]
      · simp [stepHand, hfind, memKeys_alistSet, hid]

theorem processHands_inv (hs : List Hand) (st : ProviderState) (hInv : Inv st) :
    Inv (processHands st hs).2 := by
  induction hs generalizing st with
  | nil => exact hInv
  | cons h hs ih => exact ih _ (stepHand_inv st h hInv)

theorem processHands_memKeys (hs : List Hand) (st : ProviderState) (i : ℕ) :
    memKeys (processHands st hs).2.touches i
      = (memKeys st.touches i || decide (i ∈ hs.map Hand.id)) := by
  induction hs generalizing st with
  | nil => simp [processHands]
  | cons h hs ih =>
      have hcomm : (decide (h.id = i)) = (decide (i = h.id)) :=
        decide_eq_decide.mpr ⟨Eq.symm, Eq.symm⟩
      simp [processHands, ih, stepHand_memKeys, List.mem_cons, Bool.decide_or,
        hcomm, Bool.or_assoc]

/-! Shape of the events emitted by the hand loop. -/

theorem stepHand_uid (st : ProviderState) (h : Hand) (hInv : Inv st) :
    (stepHand st h).1.2.uid = h.id := by
  cases hfind : alistFind st.touches h.id with
  | none => simp [stepHand, hfind]
  | some t =>
      have := hInv.2 (h.id, t) (alistFind_mem _ _ _ hfind)
      simp [stepHand, hfind]
      exact this

theorem stepHand_kind_ne_end (st : ProviderState) (h : Hand) :
    (stepHand st h).1.1 ≠ EventKind.End := by
  cases hfind : alistFind st.touches h.id <;> simp [stepHand, hfind]

theorem processHands_map_uid (hs : List Hand) (st : ProviderState)
    (hInv : Inv st) :
    (processHands st hs).1.map (fun e => e.2.uid) = hs.map Hand.id := by
  induction hs generalizing st with
  | nil => rfl
  | cons h hs ih =>
      simp [processHands, stepHand_uid st h hInv, ih _ (stepHand_inv st h hInv)]

theorem processHands_ne_end (hs : List Hand) (st : ProviderState) :
    ∀ e ∈ (processHands st hs).1, e.1 ≠ EventKind.End := by
  induction hs generalizing st with
  | nil => simp [processHands]
  | cons h hs ih =>
      intro e he
      simp only [processHands, List.mem_cons] at he
      rcases he with he | he
      · rw [he]; exact stepHand_kind_ne_end st h
      · exact ih _ e he

theorem processHands_length (hs : List Hand) (st : ProviderState) :
    (processHands st hs).1.length = hs.length := by
  induction hs generalizing st with
  | nil => rfl
  | cons h hs ih => simp [processHands, ih]

/-! Unfolding equations for `process_frame` and `updateRun`. -/

theorem process_frame_events (st : ProviderState) (f : Frame) :
    (process_frame st f).1 = (processHands st f).1 ++
      (((processHands st f).2.touches.filter
          (fun p => !decide (p.1 ∈ f.map Hand.id))).map
        (fun p => (EventKind.End, p.2))) := rfl

theorem process_frame_touches (st : ProviderState) (f : Frame) :
    (process_frame st f).2.touches =
      (processHands st f).2.touches.filter
        (fun p => decide (p.1 ∈ f.map Hand.id)) := rfl

theorem updateRun_cons_events (st : ProviderState) (f : Frame)
    (fs : List Frame) :
    (updateRun st (f :: fs)).1 =
      (process_frame st f).1 ++ (updateRun (process_frame st f).2 fs).1 := rfl

theorem updateRun_cons_state (st : ProviderState) (f : Frame)
    (fs : List Frame) :
    (updateRun st (f :: fs)).2 = (updateRun (process_frame st f).2 fs).2 := rfl

theorem stepHand_kind (st : ProviderState) (h : Hand) :
    (stepHand st h).1.1 =
      if memKeys st.touches h.id = true then EventKind.Update
      else EventKind.Begin := by
  cases hfind : alistFind st.touches h.id with
  | none => simp [stepHand, hfind, (alistFind_none_iff _ _).1 hfind]
  | some t => simp [stepHand, hfind, alistFind_some_memKeys _ _ _ hfind]

/-! Per-id projection of event lists, and the lifecycle automaton. -/

@[simp]
theorem projKinds_nil (i : ℕ) : projKinds [] i = [] := rfl

theorem projKinds_cons (e : EventKind × LeapHandEvent)
    (evs : List (EventKind × LeapHandEvent)) (i : ℕ) :
    projKinds (e :: evs) i =
      if e.2.uid = i then e.1 :: projKinds evs i else projKinds evs i := by
  by_cases h : e.2.uid = i <;> simp [projKinds, h]

theorem projKinds_append (evs₁ evs₂ : List (EventKind × LeapHandEvent))
    (i : ℕ) :
    projKinds (evs₁ ++ evs₂) i = projKinds evs₁ i ++ projKinds evs₂ i := by
  simp [projKinds, List.filter_append]

theorem kindsOk_append (b : Bool) (xs ys : List EventKind) :
    kindsOk b (xs ++ ys) = (kindsOk b xs).bind (fun b' => kindsOk b' ys) := by
  induction xs generalizing b with
  | nil => simp [kindsOk]
  | cons k ks ih =>
      simp only [List.cons_append, kindsOk]
      cases hstep : kindStep b k with
      | none => rfl
      | some b' => simp [ih]

theorem kindsOk_replicate (n : ℕ) :
    kindsOk true (List.replicate n EventKind.Update) = some true := by
  induction n with
  | zero => rfl
  | succ n ih => simpa [List.replicate_succ, kindsOk, kindStep] using ih

theorem cnt_zero_iff (hs : List Hand) (i : ℕ) :
    hs.countP (fun h => decide (h.id = i)) = 0 ↔ ¬ i ∈ hs.map Hand.id := by
  rw [List.countP_eq_zero]
  simp [List.mem_map]

/-- Per-id projection of the Begin/Update events produced by one hand loop:
an id already active yields one Update per report; a fresh id yields a Begin
then Updates. -/
theorem processHands_proj (hs : List Hand) (st : ProviderState) (i : ℕ)
    (hInv : Inv st) :
    projKinds (processHands st hs).1 i =
      if memKeys st.touches i = true then
        List.replicate (hs.countP (fun h => decide (h.id = i)))
          EventKind.Update
      else if hs.countP (fun h => decide (h.id = i)) = 0 then []
      else EventKind.Begin ::
        List.replicate (hs.countP (fun h => decide (h.id = i)) - 1)
          EventKind.Update := by
  induction hs generalizing st with
  | nil =>
      by_cases hm : memKeys st.touches i = true <;> simp [processHands, hm]
  | cons h hs ih =>
      have hInv1 := stepHand_inv st h hInv
      have huid := stepHand_uid st h hInv
      have hevents : (processHands st (h :: hs)).1
          = (stepHand st h).1 :: (processHands (stepHand st h).2 hs).1 := rfl
      rw [hevents, projKinds_cons, huid]
      by_cases hid : h.id = i
      · subst hid
        rw [if_pos rfl]
        have hm1 : memKeys (stepHand st h).2.touches h.id = true := by
          simp [stepHand_memKeys]
        rw [ih _ hInv1, hm1, if_pos rfl]
        have hcnt : (h :: hs).countP (fun g => decide (g.id = h.id))
            = hs.countP (fun g => decide (g.id = h.id)) + 1 :=
          List.countP_cons_of_pos _ _ (by simp)
        by_cases hm : memKeys st.touches h.id = true
        · rw [if_pos hm, stepHand_kind, if_pos hm, hcnt, List.replicate_succ]
        · rw [if_neg hm, stepHand_kind, if_neg hm, hcnt]
          simp
      · rw [if_neg hid]
        have hm1 : memKeys (stepHand st h).2.touches i = memKeys st.touches i := by
          simp [stepHand_memKeys, hid]
        have hcnt : (h :: hs).countP (fun g => decide (g.id = i))
            = hs.countP (fun g => decide (g.id = i)) :=
          List.countP_cons_of_neg _ _ (by simp [hid])
        rw [ih _ hInv1, hm1, hcnt]

/-- Per-id projection of the End events emitted at the end of a frame: one
End exactly when the id is active but not reported. -/
theorem projKinds_endEvents (l : List (ℕ × LeapHandEvent)) (avail : List ℕ)
    (i : ℕ) (hnd : (keysOf l).Nodup) (huid : ∀ p ∈ l, p.2.uid = p.1) :
    projKinds ((l.filter (fun p => !decide (p.1 ∈ avail))).map
        (fun p => (EventKind.End, p.2))) i =
      if memKeys l i = true ∧ ¬ i ∈ avail then [EventKind.End] else [] := by
  induction l with
  | nil => simp [projKinds]
  | cons q rest ih =>
      obtain ⟨k, t⟩ := q
      rw [keysOf_cons, List.nodup_cons] at hnd
      have htq : t.uid = k := huid (k, t) (List.mem_cons_self _ _)
      have hrest := ih hnd.2 (fun p hp => huid p (List.mem_cons_of_mem _ hp))
      by_cases hk : k = i
      · subst hk
        have hmemrest : memKeys rest k = false := by
          cases hmr : memKeys rest k
          · rfl
          · exact absurd ((memKeys_iff _ _).1 hmr) hnd.1
        by_cases hav : k ∈ avail
        · simp [List.filter_cons, hav, hrest, hmemrest]
        · simp [List.filter_cons, hav, projKinds_cons, htq, hrest, hmemrest]
      · by_cases hav : k ∈ avail
        · simp [List.filter_cons, hav, hrest, hk, Ne.symm hk]
        · simp [List.filter_cons, hav, projKinds_cons, htq, hk, Ne.symm hk,
            hrest]

theorem memKeys_filter_avail (l : List (ℕ × LeapHandEvent)) (avail : List ℕ)
    (i : ℕ) :
    memKeys (l.filter (fun p => decide (p.1 ∈ avail))) i
      = (memKeys l i && decide (i ∈ avail)) := by
  induction l with
  | nil => simp
  | cons q rest ih =>
      obtain ⟨k, t⟩ := q
      by_cases hk : k = i
      · subst hk
        by_cases hav : k ∈ avail <;> simp [List.filter_cons, hav, ih]
      · by_cases hav : k ∈ avail <;> simp [List.filter_cons, hav, ih, hk]

theorem process_frame_memKeys (st : ProviderState) (f : Frame) (i : ℕ) :
    memKeys (process_frame st f).2.touches i = decide (i ∈ f.map Hand.id) := by
  rw [process_frame_touches, memKeys_filter_avail, processHands_memKeys]
  cases hm : memKeys st.touches i <;>
    cases hd : decide (i ∈ f.map Hand.id) <;> rfl

theorem process_frame_inv (st : ProviderState) (f : Frame) (hInv : Inv st) :
    Inv (process_frame st f).2 := by
  obtain ⟨hnd, huid⟩ := processHands_inv f st hInv
  constructor
  · rw [process_frame_touches]
    have hsub : List.Sublist
        (keysOf ((processHands st f).2.touches.filter
          (fun p => decide (p.1 ∈ f.map Hand.id))))
        (keysOf (processHands st f).2.touches) :=
      List.Sublist.map Prod.fst (List.filter_sublist _)
    exact hsub.nodup hnd
  · intro p hp
    rw [process_frame_touches] at hp
    exact huid p (List.mem_filter.1 hp).1

theorem updateRun_inv (frames : List Frame) (st : ProviderState)
    (hInv : Inv st) : Inv (updateRun st frames).2 := by
  induction frames generalizing st with
  | nil => exact hInv
  | cons f fs ih => exact ih _ (process_frame_inv st f hInv)

/-- One frame advances the per-id lifecycle automaton from the id's
membership before the frame to its membership after the frame, without ever
hitting a lifecycle violation. -/
theorem process_frame_kindsOk (st : ProviderState) (f : Frame) (i : ℕ)
    (hInv : Inv st) :
    kindsOk (memKeys st.touches i) (projKinds (process_frame st f).1 i)
      = some (memKeys (process_frame st f).2.touches i) := by
  have hInv' := processHands_inv f st hInv
  rw [process_frame_events, projKinds_append, kindsOk_append,
    processHands_proj f st i hInv,
    projKinds_endEvents _ _ i hInv'.1 hInv'.2,
    process_frame_memKeys, processHands_memKeys]
  by_cases hav : i ∈ f.map Hand.id
  · have hcnt : ¬ f.countP (fun h => decide (h.id = i)) = 0 :=
      fun h0 => (cnt_zero_iff f i).1 h0 hav
    by_cases hm : memKeys st.touches i = true
    · rw [hm, if_pos rfl]
      simp [kindsOk_replicate, hav, kindsOk]
    · rw [if_neg hm, if_neg hcnt]
      have hm' : memKeys st.touches i = false := by
        cases hmm : memKeys st.touches i
        · rfl
        · exact absurd hmm hm
      rw [hm']
      simp [kindsOk, kindStep, kindsOk_replicate, hav]
  · have hcnt : f.countP (fun h => decide (h.id = i)) = 0 :=
      (cnt_zero_iff f i).2 hav
    by_cases hm : memKeys st.touches i = true
    · rw [hm, if_pos rfl, hcnt]
      simp [kindsOk, kindStep, hav]
    · have hm' : memKeys st.touches i = false := by
        cases hmm : memKeys st.touches i
        · rfl
        · exact absurd hmm hm
      rw [hm', if_neg (fun h => Bool.false_ne_true h), if_pos hcnt]
      simp [kindsOk, hav]

/-- Whole-run version of the automaton step: the per-id event projection of a
run is accepted by the lifecycle automaton, ending open exactly when the id
is still active. -/
theorem updateRun_kindsOk (frames : List Frame) (st : ProviderState) (i : ℕ)
    (hInv : Inv st) :
    kindsOk (memKeys st.touches i) (projKinds (updateRun st frames).1 i)
      = some (memKeys (updateRun st frames).2.touches i) := by
  induction frames generalizing st with
  | nil => simp [updateRun, kindsOk]
  | cons f fs ih =>
      rw [updateRun_cons_events, updateRun_cons_state, projKinds_append,
        kindsOk_append, process_frame_kindsOk st f i hInv]
      simpa using ih _ (process_frame_inv st f hInv)

/-! Facts about `lastBU`, the last Begin/Update touch for an id. -/

theorem lastBU_append_skip (evs : List (EventKind × LeapHandEvent))
    (e : EventKind × LeapHandEvent) (i : ℕ)
    (h : e.1 = EventKind.End ∨ e.2.uid ≠ i) :
    lastBU (evs ++ [e]) i = lastBU evs i := by
  unfold lastBU
  rw [List.filter_append]
  have hnil : [e].filter (fun e =>
      decide (e.2.uid = i) && !decide (e.1 = EventKind.End)) = [] := by
    rcases h with h | h <;> simp [List.filter_cons, h]
  rw [hnil, List.append_nil]

theorem lastBU_append_keep (evs : List (EventKind × LeapHandEvent))
    (e : EventKind × LeapHandEvent) (i : ℕ)
    (hk : e.1 ≠ EventKind.End) (hu : e.2.uid = i) :
    lastBU (evs ++ [e]) i = some e.2 := by
  unfold lastBU
  rw [List.filter_append]
  have hone : [e].filter (fun e =>
      decide (e.2.uid = i) && !decide (e.1 = EventKind.End)) = [e] := by
    simp [List.filter_cons, hk, hu]
  rw [hone, List.map_append]
  simp

theorem lastBU_append_ends (evs ys : List (EventKind × LeapHandEvent))
    (i : ℕ) (hys : ∀ e ∈ ys, e.1 = EventKind.End) :
    lastBU (evs ++ ys) i = lastBU evs i := by
  unfold lastBU
  rw [List.filter_append]
  have hnil : ys.filter (fun e =>
      decide (e.2.uid = i) && !decide (e.1 = EventKind.End)) = [] := by
    rw [List.filter_eq_nil_iff]
    intro e he
    simp [hys e he]
  rw [hnil, List.append_nil]

/-! The stored touch is always the one carried by the last Begin/Update
event: preservation through the hand loop. -/

theorem stepHand_tracks (st : ProviderState) (h : Hand)
    (evs : List (EventKind × LeapHandEvent)) (hInv : Inv st)
    (ht : TracksLast evs st) :
    TracksLast (evs ++ [(stepHand st h).1]) (stepHand st h).2 := by
  cases hfind : alistFind st.touches h.id with
  | none =>
      have hid_not : ¬ h.id ∈ keysOf st.touches := by
        intro hmem
        have := (memKeys_iff _ _).2 hmem
        rw [(alistFind_none_iff _ _).1 hfind] at this
        exact Bool.false_ne_true this
      simp only [stepHand, hfind]
      intro p hp
      simp only [List.mem_append, List.mem_singleton] at hp
      rcases hp with hp | hp
      · have hne : p.1 ≠ h.id := fun he =>
          hid_not (he ▸ List.mem_map.2 ⟨p, hp, rfl⟩)
        rw [lastBU_append_skip _ _ _ (Or.inr (by simp [Ne.symm hne]))]
        exact ht p hp
      · rw [hp]
        exact lastBU_append_keep _ _ _ (by simp) (by simp)
  | some t =>
      have hmem := alistFind_mem _ _ _ hfind
      have htuid : t.uid = h.id := hInv.2 _ hmem
      simp only [stepHand, hfind]
      intro p hp
      simp only at hp
      rcases mem_alistSet_of_nodup _ _ _ hInv.1 p hp with hp | hp
      · rw [hp]
        exact lastBU_append_keep _ _ _ (by simp) (by simp [htuid])
      · rw [lastBU_append_skip _ _ _ (Or.inr (by simp [htuid, Ne.symm hp.2]))]
        exact ht p hp.1

theorem processHands_tracks (hs : List Hand) (st : ProviderState)
    (evs : List (EventKind × LeapHandEvent)) (hInv : Inv st)
    (ht : TracksLast evs st) :
    TracksLast (evs ++ (processHands st hs).1) (processHands st hs).2 ∧
    (∀ pre post (t : LeapHandEvent), (processHands st hs).1
        = pre ++ (EventKind.Update, t) :: post →
      ∃ t', lastBU (evs ++ pre) t.uid = some t' ∧ t'.birth = t.birth ∧
        t'.device = t.device ∧ t'.uid = t.uid) := by
  induction hs generalizing st evs with
  | nil =>
      constructor
      · simpa [processHands] using ht
      · intro pre post t hpre
        exact absurd hpre.symm (List.append_ne_nil_of_right_ne_nil _
          (List.cons_ne_nil _ _))
  | cons h hs ih =>
      have hInv1 := stepHand_inv st h hInv
      have ht1 := stepHand_tracks st h evs hInv ht
      have hevents : (processHands st (h :: hs)).1
          = (stepHand st h).1 :: (processHands (stepHand st h).2 hs).1 := rfl
      have hstate : (processHands st (h :: hs)).2
          = (processHands (stepHand st h).2 hs).2 := rfl
      obtain ⟨ihT, ihU⟩ := ih (stepHand st h).2 (evs ++ [(stepHand st h).1])
        hInv1 ht1
      constructor
      · rw [hevents, hstate]
        intro p hp
        have := ihT p hp
        rwa [List.append_assoc, List.singleton_append] at this
      · intro pre post t hpre
        rw [hevents] at hpre
        cases pre with
        | nil =>
            simp only [List.nil_append, List.cons.injEq] at hpre
            obtain ⟨h1, h2⟩ := hpre
            cases hfind : alistFind st.touches h.id with
            | none =>
                simp [stepHand, hfind] at h1
            | some t₀ =>
                have hmem := alistFind_mem _ _ _ hfind
                have ht₀uid : t₀.uid = h.id := hInv.2 _ hmem
                have hteq : t = t₀.move (some h.px, h.py, h.pz) := by
                  simp only [stepHand, hfind, Prod.mk.injEq] at h1
                  exact h1.2.symm
                refine ⟨t₀, ?_, ?_, ?_, ?_⟩
                · rw [List.append_nil, hteq]
                  simp only [move_uid, ht₀uid]
                  exact ht _ hmem
                · rw [hteq]; simp
                · rw [hteq]; simp
                · rw [hteq]; simp
        | cons e pre' =>
            simp only [List.cons_append, List.cons.injEq] at hpre
            obtain ⟨he, hrest⟩ := hpre
            obtain ⟨t', h1, h2⟩ := ihU pre' post t hrest
            refine ⟨t', ?_, h2⟩
            rw [List.append_assoc, List.singleton_append, he] at h1
            exact h1

/-! Decomposition lemmas for events sitting inside a concatenation. -/

theorem split_in_first {α : Type} (P : α → Prop) (xs : List α) :
    ∀ (ys pre post : List α) (x : α), (∀ e ∈ ys, P e) → ¬ P x →
      xs ++ ys = pre ++ x :: post → ∃ post₂, xs = pre ++ x :: post₂ := by
  induction xs with
  | nil =>
      intro ys pre post x hys hx h
      exfalso
      refine hx (hys x ?_)
      rw [List.nil_append] at h
      rw [h]
      exact List.mem_append_right _ (List.mem_cons_self _ _)
  | cons b bu ih =>
      intro ys pre post x hys hx h
      cases pre with
      | nil =>
          simp only [List.cons_append, List.nil_append, List.cons.injEq] at h
          exact ⟨bu, by rw [h.1, List.nil_append]⟩
      | cons p pre' =>
          simp only [List.cons_append, List.cons.injEq] at h
          obtain ⟨post₂, h2⟩ := ih ys pre' post x hys hx h.2
          exact ⟨post₂, by rw [h.1, h2, List.cons_append]⟩

theorem split_in_second {α : Type} (P : α → Prop) (xs : List α) :
    ∀ (ys pre post : List α) (x : α), (∀ e ∈ xs, P e) → ¬ P x →
      xs ++ ys = pre ++ x :: post →
      ∃ pre₂ post₂, pre = xs ++ pre₂ ∧ ys = pre₂ ++ x :: post₂ := by
  induction xs with
  | nil =>
      intro ys pre post x _ _ h
      exact ⟨pre, post, (List.nil_append pre).symm, by rwa [List.nil_append] at h⟩
  | cons b bu ih =>
      intro ys pre post x hxs hx h
      cases pre with
      | nil =>
          exfalso
          simp only [List.cons_append, List.nil_append, List.cons.injEq] at h
          exact hx (h.1 ▸ hxs b (List.mem_cons_self _ _))
      | cons p pre' =>
          simp only [List.cons_append, List.cons.injEq] at h
          obtain ⟨pre₂, post₂, h1, h2⟩ := ih ys pre' post x
            (fun e he => hxs e (List.mem_cons_of_mem _ he)) hx h.2
          exact ⟨pre₂, post₂, by rw [← h.1, h1, List.cons_append], h2⟩

theorem split_middle {α : Type} (xs : List α) :
    ∀ (ys pre post : List α) (x : α), xs ++ ys = pre ++ x :: post →
      (∃ post₁, xs = pre ++ x :: post₁) ∨
      (∃ pre₂, pre = xs ++ pre₂ ∧ ys = pre₂ ++ x :: post) := by
  induction xs with
  | nil =>
      intro ys pre post x h
      exact Or.inr ⟨pre, (List.nil_append pre).symm,
        by rwa [List.nil_append] at h⟩
  | cons b bu ih =>
      intro ys pre post x h
      cases pre with
      | nil =>
          simp only [List.cons_append, List.nil_append, List.cons.injEq] at h
          exact Or.inl ⟨bu, by rw [h.1, List.nil_append]⟩
      | cons p pre' =>
          simp only [List.cons_append, List.cons.injEq] at h
          rcases ih ys pre' post x h.2 with ⟨post₁, h1⟩ | ⟨pre₂, h1, h2⟩
          · exact Or.inl ⟨post₁, by rw [h.1, h1, List.cons_append]⟩
          · exact Or.inr ⟨pre₂, by rw [← h.1, h1, List.cons_append], h2⟩

/-! Frame-level and run-level history coherence. -/

theorem process_frame_tracks (st : ProviderState) (f : Frame)
    (evs : List (EventKind × LeapHandEvent)) (hInv : Inv st)
    (ht : TracksLast evs st) :
    TracksLast (evs ++ (process_frame st f).1) (process_frame st f).2 ∧
    (∀ pre post (t : LeapHandEvent), (process_frame st f).1
        = pre ++ (EventKind.End, t) :: post →
      lastBU (evs ++ pre) t.uid = some t) ∧
    (∀ pre post (t : LeapHandEvent), (process_frame st f).1
        = pre ++ (EventKind.Update, t) :: post →
      ∃ t', lastBU (evs ++ pre) t.uid = some t' ∧ t'.birth = t.birth ∧
        t'.device = t.device ∧ t'.uid = t.uid) := by
  obtain ⟨hT, hU⟩ := processHands_tracks f st evs hInv ht
  have hInv' := processHands_inv f st hInv
  have hbu_ne := processHands_ne_end f st
  have hends : ∀ e ∈ (((processHands st f).2.touches.filter
        (fun p => !decide (p.1 ∈ f.map Hand.id))).map
      (fun p => (EventKind.End, p.2))), e.1 = EventKind.End := by
    intro e he
    obtain ⟨p, _, he'⟩ := List.mem_map.1 he
    rw [← he']
  refine ⟨?_, ?_, ?_⟩
  · intro p hp
    rw [process_frame_events, ← List.append_assoc,
      lastBU_append_ends _ _ _ hends]
    rw [process_frame_touches] at hp
    exact hT p (List.mem_filter.1 hp).1
  · intro pre post t hsplit
    rw [process_frame_events] at hsplit
    obtain ⟨pre₂, post₂, hpre, hends_eq⟩ :=
      split_in_second (fun e => e.1 ≠ EventKind.End) _ _ pre post
        (EventKind.End, t) hbu_ne (by simp) hsplit
    have hmem : (EventKind.End, t) ∈ (((processHands st f).2.touches.filter
        (fun p => !decide (p.1 ∈ f.map Hand.id))).map
      (fun p => (EventKind.End, p.2))) := by
      rw [hends_eq]
      exact List.mem_append_right _ (List.mem_cons_self _ _)
    obtain ⟨p, hpmem, hpe⟩ := List.mem_map.1 hmem
    have hp2 : p.2 = t := by
      simpa using congrArg Prod.snd hpe
    have hpin : p ∈ (processHands st f).2.touches := (List.mem_filter.1 hpmem).1
    have hpuid : p.2.uid = p.1 := hInv'.2 p hpin
    have hpre₂_ends : ∀ e ∈ pre₂, e.1 = EventKind.End := fun e he =>
      hends _ (by rw [hends_eq]; exact List.mem_append_left _ he)
    rw [hpre, ← List.append_assoc, lastBU_append_ends _ _ _ hpre₂_ends,
      ← hp2, hpuid]
    exact hT p hpin
  · intro pre post t hsplit
    rw [process_frame_events] at hsplit
    obtain ⟨post₂, hbu_eq⟩ := split_in_first (fun e => e.1 = EventKind.End)
      _ _ pre post (EventKind.Update, t) hends (by simp) hsplit
    exact hU pre post₂ t hbu_eq

theorem updateRun_tracks (frames : List Frame) :
    ∀ (st : ProviderState) (evs : List (EventKind × LeapHandEvent)),
      Inv st → TracksLast evs st →
      (∀ pre post (t : LeapHandEvent), (updateRun st frames).1
          = pre ++ (EventKind.End, t) :: post →
        lastBU (evs ++ pre) t.uid = some t) ∧
      (∀ pre post (t : LeapHandEvent), (updateRun st frames).1
          = pre ++ (EventKind.Update, t) :: post →
        ∃ t', lastBU (evs ++ pre) t.uid = some t' ∧ t'.birth = t.birth ∧
          t'.device = t.device ∧ t'.uid = t.uid) ∧
      TracksLast (evs ++ (updateRun st frames).1) (updateRun st frames).2 := by
  induction frames with
  | nil =>
      intro st evs hInv ht
      refine ⟨?_, ?_, ?_⟩
      · intro pre post t hsplit
        exact absurd hsplit.symm (List.append_ne_nil_of_right_ne_nil _
          (List.cons_ne_nil _ _))
      · intro pre post t hsplit
        exact absurd hsplit.symm (List.append_ne_nil_of_right_ne_nil _
          (List.cons_ne_nil _ _))
      · simpa [updateRun] using ht
  | cons f fs ih =>
      intro st evs hInv ht
      obtain ⟨hfT, hfE, hfU⟩ := process_frame_tracks st f evs hInv ht
      have hInv' := process_frame_inv st f hInv
      obtain ⟨ihE, ihU, ihT⟩ := ih (process_frame st f).2
        (evs ++ (process_frame st f).1) hInv' hfT
      refine ⟨?_, ?_, ?_⟩
      · intro pre post t hsplit
        rw [updateRun_cons_events] at hsplit
        rcases split_middle _ _ _ _ _ hsplit with ⟨post₁, h1⟩ |
          ⟨pre₂, h1, h2⟩
        · exact hfE pre post₁ t h1
        · have := ihE pre₂ post t h2
          rwa [List.append_assoc, ← h1] at this
      · intro pre post t hsplit
        rw [updateRun_cons_events] at hsplit
        rcases split_middle _ _ _ _ _ hsplit with ⟨post₁, h1⟩ |
          ⟨pre₂, h1, h2⟩
        · exact hfU pre post₁ t h1
        · have := ihU pre₂ post t h2
          rwa [List.append_assoc, ← h1] at this
      · rw [updateRun_cons_events, updateRun_cons_state, ← List.append_assoc]
        exact ihT

/-! Claim theorems. -/

/-- C1: for every id appearing in a sequence of frames fed through
`process_frame` (starting from a fresh provider), the projection of the
emitted events onto that id is accepted by the per-id lifecycle automaton:
a well-nested chain of exactly one Begin, zero or more Update, exactly one
End per session, with no two Begin/End pairs overlapping — a session must
fully end (its End emitted and the id removed from the mapping) before a new
Begin can appear for the same id; the automaton ends in the open state
exactly when the id is still in the mapping after the last frame. -/
theorem C1_lifecycle_per_id (frames : List Frame) (i : ℕ) :
    kindsOk false (projKinds (updateRun initState frames).1 i)
      = some (memKeys (updateRun initState frames).2.touches i) := by
  have hInv0 : Inv initState := ⟨by simp [initState, keysOf], by simp [initState]⟩
  have := updateRun_kindsOk frames initState i hInv0
  simpa [initState] using this

/-- C2: after `process_frame` finishes processing a frame F (from any
provider state), the keys of `self.touches` are exactly the ids reported in
F; in particular a frame reporting zero objects leaves the mapping empty. -/
theorem C2_active_set (st : ProviderState) (f : Frame) (i : ℕ) :
    (memKeys (process_frame st f).2.touches i = true ↔ i ∈ f.map Hand.id) ∧
    (process_frame st ([] : Frame)).2.touches = [] := by
  constructor
  · rw [process_frame_memKeys]
    exact decide_eq_true_iff
  · rw [process_frame_touches]
    simp [processHands]

/-- C5: `normalize(value, low, high)` equals `(value - low) / (high - low)`
whenever the bounds differ, and for all valid `low < high` it maps the low
bound to 0 and the high bound to 1. -/
theorem C5_normalize (v low high : ℚ) :
    (high ≠ low → normalize v low high = (v - low) / (high - low)) ∧
    (low < high → normalize low low high = 0 ∧ normalize high low high = 1) := by
  refine ⟨fun _ => rfl, fun hlt => ⟨?_, ?_⟩⟩
  · simp [normalize]
  · have hne : high - low ≠ 0 := sub_ne_zero.2 (ne_of_gt hlt)
    simp [normalize, div_self hne]

theorem C5_normalize_witness :
    normalize 7 2 10 = (7 - 2) / (10 - 2) ∧
    normalize 2 2 10 = 0 ∧ normalize 10 2 10 = 1 :=
  ⟨(C5_normalize 7 2 10).1 (by norm_num),
   ((C5_normalize 7 2 10).2 (by norm_num)).1,
   ((C5_normalize 7 2 10).2 (by norm_num)).2⟩

/-- C6: the frame queue is FIFO and never errors on empty: frames pushed in
order F1, F2, F3 are drained oldest first in exactly that order; draining an
empty queue yields the empty sequence; draining returns the whole queue and
leaves it empty, so no frame is ever delivered to a second consumer call. -/
theorem C6_queue_fifo (f1 f2 f3 : Frame) (q : List Frame) :
    drainAll (push (push (push [] f1) f2) f3) = ([f1, f2, f3], []) ∧
    drainAll ([] : List Frame) = ([], []) ∧
    drainAll q = (q, []) ∧
    drainAll (drainAll q).2 = ([], []) := by
  have hdl : ∀ r : List Frame, drainLoop r = r := by
    intro r
    induction r with
    | nil => rfl
    | cons f r ih => simp [drainLoop, ih]
  refine ⟨?_, rfl, ?_, rfl⟩
  · simp [drainAll, push, hdl]
  · simp [drainAll, hdl]

/-- C10: calling `depack` with an argument tuple whose first component is
None returns right after the superclass call and modifies no field of the
event: `sx`, `sy`, `sz`, `z`, `profile` and `is_touch` are all left exactly
as they were. -/
theorem C10_depack_none (ev : LeapHandEvent) (y z : ℚ) :
    ev.depack (none, y, z) = ev := rfl

/-- C3: with no active sessions, pushing one frame reporting id 1 at
position (0, 250, 0) and polling yields exactly one event — a Begin for
session 1 — whose normalized coordinates are sx = 0.5 and sy = 0.5 under the
module's x-bounds -150..150 and y-bounds 40..460. -/
theorem C3_scenarioA :
    ((update initState (push [] [⟨1, 0, 250, 0⟩])).1.1.map
        (fun e => (e.1, e.2.uid, e.2.sx, e.2.sy)))
      = [(EventKind.Begin, 1, some (1/2 : ℚ), some (1/2 : ℚ))] := by
  simp [update, push, drainLoop, updateRun, process_frame, processHands,
    stepHand, initState, alistFind, newLeapHandEvent, LeapHandEvent.depack]
  norm_num [LeapHand.normalize]

/-- C4 counterexample: End emissions among simultaneously-vanishing ids are
NOT ordered ascending by id value. With sessions begun in the order 7 then
5, a zero-object frame emits the End events in the order [7, 5], which is
not ascending. -/
theorem C4_counterexample :
    (((update initState (push (push [] [⟨7, 0, 0, 0⟩, ⟨5, 0, 0, 0⟩]) [])).1.1.filter
        (fun e => decide (e.1 = EventKind.End))).map (fun e => e.2.uid))
      = [7, 5] ∧
    ¬ List.Sorted (· ≤ ·)
      (((update initState (push (push [] [⟨7, 0, 0, 0⟩, ⟨5, 0, 0, 0⟩]) [])).1.1.filter
          (fun e => decide (e.1 = EventKind.End))).map (fun e => e.2.uid)) := by
  have h : (((update initState
        (push (push [] [⟨7, 0, 0, 0⟩, ⟨5, 0, 0, 0⟩]) [])).1.1.filter
      (fun e => decide (e.1 = EventKind.End))).map (fun e => e.2.uid))
      = [7, 5] := by
    simp [update, push, drainLoop, updateRun, process_frame, processHands,
      stepHand, initState, alistFind, alistSet, newLeapHandEvent,
      LeapHandEvent.depack, List.filter_cons]
  refine ⟨h, ?_⟩
  rw [h]
  decide

/-- C4 amended: when a zero-object frame is reconciled, an End event is
emitted for every active session, in the mapping's insertion order (the
order in which the sessions were begun — the deterministic iteration order
of the Python dict), not ascending by id value, and the mapping becomes
empty; in the concrete scenario where sessions 5 and 7 were begun in that
order, poll() yields exactly the two End events 5 then 7. -/
theorem C4_amended (st : ProviderState) :
    (process_frame st []).1 = st.touches.map (fun p => (EventKind.End, p.2)) ∧
    (process_frame st []).2.touches = [] ∧
    (((update initState (push (push [] [⟨5, 0, 0, 0⟩, ⟨7, 0, 0, 0⟩]) [])).1.1.filter
        (fun e => decide (e.1 = EventKind.End))).map (fun e => e.2.uid))
      = [5, 7] := by
  refine ⟨?_, ?_, ?_⟩
  · rw [process_frame_events]
    simp [processHands]
  · rw [process_frame_touches]
    simp [processHands]
  · simp [update, push, drainLoop, updateRun, process_frame, processHands,
      stepHand, initState, alistFind, alistSet, newLeapHandEvent,
      LeapHandEvent.depack, List.filter_cons]

/-- C7: within one frame, `process_frame` returns one Begin/Update event per
reported hand, in the frame's listed order (the first `f.length` events
carry the hands' ids in order and none of them is an End), followed by
End events only; across frames, the events of an earlier drained frame
precede all events of a later one, and the concrete two-frame scenario
[(id 2, pos A)], [(id 2, pos B)] polled once yields [Begin(2, A),
Update(2, B)] in that order. -/
theorem C7_event_order (st : ProviderState) (f : Frame) (fs : List Frame)
    (hInv : Inv st) :
    (((process_frame st f).1.take f.length).map (fun e => e.2.uid)
        = f.map Hand.id) ∧
    (∀ e ∈ (process_frame st f).1.take f.length, e.1 ≠ EventKind.End) ∧
    (∀ e ∈ (process_frame st f).1.drop f.length, e.1 = EventKind.End) ∧
    ((updateRun st (f :: fs)).1
        = (process_frame st f).1 ++ (updateRun (process_frame st f).2 fs).1) ∧
    (((updateRun initState [[⟨2, 0, 250, 0⟩], [⟨2, 150, 250, 0⟩]]).1.map
        (fun e => (e.1, e.2.uid, e.2.sx)))
      = [(EventKind.Begin, 2, some (1/2 : ℚ)),
         (EventKind.Update, 2, some 1)]) := by
  have hlen : (processHands st f).1.length = f.length := processHands_length f st
  have htake : (process_frame st f).1.take f.length = (processHands st f).1 := by
    rw [process_frame_events]
    exact List.take_left' hlen
  have hdrop : (process_frame st f).1.drop f.length
      = (((processHands st f).2.touches.filter
          (fun p => !decide (p.1 ∈ f.map Hand.id))).map
        (fun p => (EventKind.End, p.2))) := by
    rw [process_frame_events]
    exact List.drop_left' hlen
  refine ⟨?_, ?_, ?_, updateRun_cons_events st f fs, ?_⟩
  · rw [htake]
    exact processHands_map_uid f st hInv
  · rw [htake]
    exact processHands_ne_end f st
  · rw [hdrop]
    intro e he
    obtain ⟨p, _, he'⟩ := List.mem_map.1 he
    rw [← he']
  · simp [updateRun, process_frame, processHands, stepHand, initState,
      alistFind, alistSet, newLeapHandEvent, LeapHandEvent.depack,
      LeapHandEvent.move, List.filter_cons]
    norm_num [LeapHand.normalize]

theorem C7_event_order_witness :
    Inv initState ∧
    (((process_frame initState ([] : Frame)).1.take
          (List.length ([] : Frame))).map (fun e => e.2.uid)
        = ([] : Frame).map Hand.id) :=
  ⟨⟨by simp [initState, keysOf], by simp [initState]⟩,
    (C7_event_order initState [] []
      ⟨by simp [initState, keysOf], by simp [initState]⟩).1⟩

/-- C8: an id that is reported in a frame and was already in the mapping at
the start of the frame is never ended and re-begun by that frame: its per-id
event projection is exactly one Update per occurrence of the id in the
frame, with no End (and no Begin) emitted for it. -/
theorem C8_no_rebegin (st : ProviderState) (f : Frame) (i : ℕ)
    (hInv : Inv st) (hmem : memKeys st.touches i = true)
    (hrep : i ∈ f.map Hand.id) :
    projKinds (process_frame st f).1 i
      = List.replicate (f.countP (fun h => decide (h.id = i)))
          EventKind.Update := by
  have hInv' := processHands_inv f st hInv
  rw [process_frame_events, projKinds_append, processHands_proj f st i hInv,
    if_pos hmem, projKinds_endEvents _ _ i hInv'.1 hInv'.2,
    if_neg (fun hc => hc.2 hrep)]
  simp

theorem C8_no_rebegin_witness :
    Inv ⟨0, [(1, newLeapHandEvent 0 1 0 (none, 0, 0))], 1⟩ ∧
    memKeys [(1, newLeapHandEvent 0 1 0 (none, 0, 0))] 1 = true ∧
    (1 : ℕ) ∈ ([⟨1, 0, 0, 0⟩] : Frame).map Hand.id ∧
    projKinds (process_frame ⟨0, [(1, newLeapHandEvent 0 1 0 (none, 0, 0))], 1⟩
        [⟨1, 0, 0, 0⟩]).1 1
      = List.replicate (([⟨1, 0, 0, 0⟩] : Frame).countP
          (fun h => decide (h.id = 1))) EventKind.Update :=
  ⟨by decide, by decide, by decide,
    C8_no_rebegin _ _ _ (by decide) (by decide) (by decide)⟩

/-- C9: session object identity is stable for an id's whole lifetime. In the
embedding the identity of the Python event object is its immutable fields
(`device`, `uid`, and the creation counter `birth`), and in-place position
overwriting means the stored touch is always the one carried by the last
Begin/Update event. Consequently: every End event for an id carries exactly
the touch of the last preceding Begin/Update event for that id (hence the
position of the id's last reported frame), and every Update event's touch
has the same identity fields as the touch of the last preceding Begin/Update
event for that id — the chain reaching back to the Begin that created it. -/
theorem C9_session_identity (frames : List Frame)
    (pre post : List (EventKind × LeapHandEvent)) (t : LeapHandEvent) :
    ((updateRun initState frames).1 = pre ++ (EventKind.End, t) :: post →
      lastBU pre t.uid = some t) ∧
    ((updateRun initState frames).1 = pre ++ (EventKind.Update, t) :: post →
      ∃ t', lastBU pre t.uid = some t' ∧ t'.birth = t.birth ∧
        t'.device = t.device ∧ t'.uid = t.uid) := by
  have hInv0 : Inv initState := ⟨by simp [initState, keysOf], by simp [initState]⟩
  have ht0 : TracksLast [] initState := by
    intro p hp
    simp [initState] at hp
  obtain ⟨hE, hU, _⟩ := updateRun_tracks frames initState [] hInv0 ht0
  constructor
  · intro h
    simpa using hE pre post t h
  · intro h
    simpa using hU pre post t h

theorem C9_session_identity_witness :
    (lastBU [(EventKind.Begin, newLeapHandEvent 0 2 0 (some 0, 250, 0)),
        (EventKind.Update, (newLeapHandEvent 0 2 0 (some 0, 250, 0)).move
          (some 150, 250, 0))]
        ((newLeapHandEvent 0 2 0 (some 0, 250, 0)).move (some 150, 250, 0)).uid
      = some ((newLeapHandEvent 0 2 0 (some 0, 250, 0)).move
          (some 150, 250, 0))) ∧
    (∃ t', lastBU [(EventKind.Begin, newLeapHandEvent 0 2 0 (some 0, 250, 0))]
        ((newLeapHandEvent 0 2 0 (some 0, 250, 0)).move (some 150, 250, 0)).uid
          = some t' ∧
      t'.birth = ((newLeapHandEvent 0 2 0 (some 0, 250, 0)).move
        (some 150, 250, 0)).birth ∧
      t'.device = ((newLeapHandEvent 0 2 0 (some 0, 250, 0)).move
        (some 150, 250, 0)).device ∧
      t'.uid = ((newLeapHandEvent 0 2 0 (some 0, 250, 0)).move
        (some 150, 250, 0)).uid) :=
  ⟨(C9_session_identity [[⟨2, 0, 250, 0⟩], [⟨2, 150, 250, 0⟩], []]
      [(EventKind.Begin, newLeapHandEvent 0 2 0 (some 0, 250, 0)),
       (EventKind.Update, (newLeapHandEvent 0 2 0 (some 0, 250, 0)).move
         (some 150, 250, 0))]
      [] ((newLeapHandEvent 0 2 0 (some 0, 250, 0)).move
        (some 150, 250, 0))).1 rfl,
   (C9_session_identity [[⟨2, 0, 250, 0⟩], [⟨2, 150, 250, 0⟩], []]
      [(EventKind.Begin, newLeapHandEvent 0 2 0 (some 0, 250, 0))]
      [(EventKind.End, (newLeapHandEvent 0 2 0 (some 0, 250, 0)).move
        (some 150, 250, 0))]
      ((newLeapHandEvent 0 2 0 (some 0, 250, 0)).move
        (some 150, 250, 0))).2 rfl⟩

end LeapHand
